import Mathlib

/-!
# hasher_list: a chained string hash table with two rehashing strategies

Shallow embedding of `src/main.cpp` (class `HashTable`) and the properties
of its hash function, insertion and the two rehash routines.

Modelling conventions

* `std::list<std::string> table[TABLE_SIZE]` is a total map from the 200
  valid indices to lists of keys (`Fin TABLE_SIZE → List Key`); an access
  with an `int` index outside `[0, TABLE_SIZE)` is undefined behaviour in
  C++ and is reported as `none`.
* `std::string` is a list of bytes; a `char` is promoted to `int` as a
  signed 8-bit value (the x86-64 ABI the project is built for).
* `int` is 32-bit two's complement; `+` wraps modulo `2^32`, `%` truncates
  towards zero (`Int.tmod`).
* `std::rand()` after `std::srand(seed)` is a sequence `rand : Nat → Nat`
  of non-negative results; the loop threads the number of calls made so far.
-/

namespace HasherList

/-! ## Data model -/

/-- The constant `const int TABLE_SIZE = 200;`. -/
abbrev TABLE_SIZE : Nat := 200

/-- One `char` of a `std::string`, given by its byte value `0..255`. -/
abbrev CChar := Fin 256

/-- A `std::string` key: its sequence of `char`s. -/
structure Key where
  chars : List CChar
  deriving DecidableEq

/-- Integral promotion `char → int` for a signed 8-bit `char`: bytes
`0x80..0xFF` denote the negative values `-128..-1`. -/
def charToInt (c : CChar) : Int :=
  if c.val < 128 then (c.val : Int) else (c.val : Int) - 256

/-- Reduction of a mathematical integer to the 32-bit two's complement `int`
that stores it. -/
def wrapInt (x : Int) : Int :=
  (x + 2147483648) % 4294967296 - 2147483648

/-- The array member `std::list<std::string> table[TABLE_SIZE]`. -/
abbrev Buckets := Fin TABLE_SIZE → List Key

/-- The class `HashTable`: its only data member is `table`. -/
@[ext]
structure HashTable where
  table : Buckets

/-- The operation `arr[i].push_back(key)` on an array of lists, `i` a valid index. -/
def push_back (arr : Buckets) (i : Fin TABLE_SIZE) (key : Key) : Buckets :=
  Function.update arr i (arr i ++ [key])

/-- The subscript `n % TABLE_SIZE` for a non-negative `int` value `n`; it is
always a valid index of the array. -/
def slot (n : Nat) : Fin TABLE_SIZE :=
  ⟨n % TABLE_SIZE, Nat.mod_lt _ (by decide)⟩

/-- A freshly declared `std::list<std::string> new_table[TABLE_SIZE]`:
every list default-constructed empty. -/
def emptyBuckets : Buckets := fun _ => []

namespace HashTable

/-- The default-constructed `HashTable ht;`. -/
def empty : HashTable := ⟨emptyBuckets⟩

/-- The body of `int hash(std::string key)`:
`int sum = 0; for (char c : key) sum += c; return sum % TABLE_SIZE;`. -/
def hash (key : Key) : Int :=
  Int.tmod (key.chars.foldl (fun sum c => wrapInt (sum + charToInt c)) 0) (TABLE_SIZE : Int)

/-- The body of `void insert(std::string key)`:
`int index = hash(key); table[index].push_back(key);`.
`none` when `index` is not a valid subscript of `table`. -/
def insert (ht : HashTable) (key : Key) : Option HashTable :=
  let index := hash key
  if h : 0 ≤ index ∧ index < (TABLE_SIZE : Int) then
    some ⟨push_back ht.table ⟨index.toNat, by omega⟩ key⟩
  else
    none

/-- The final loop of both rehash routines:
`for (int i = 0; i < TABLE_SIZE; i++) table[i] = new_table[i];`. -/
def copy_back (tbl new_table : Buckets) : Buckets :=
  (List.finRange TABLE_SIZE).foldl (fun tb i => Function.update tb i (new_table i)) tbl

/-- The filling loop of `rehash_list`, run over the bucket indices `is`:
`for (std::string key : table[i]) new_table[(i + 1) % TABLE_SIZE].push_back(key);`. -/
def rehash_list_fill (tbl : Buckets) (is : List (Fin TABLE_SIZE)) (new_table : Buckets) :
    Buckets :=
  is.foldl
    (fun nt i =>
      (tbl i).foldl
        (fun nt key => push_back nt (slot (i.val + 1)) key)
        nt)
    new_table

/-- The body of `void rehash_list()`. -/
def rehash_list (ht : HashTable) : HashTable :=
  let new_table := rehash_list_fill ht.table (List.finRange TABLE_SIZE) emptyBuckets
  ⟨copy_back ht.table new_table⟩

/-- The filling loop of `rehash_random`, run over the bucket indices `is`.
The state is the new array together with the number of `std::rand()` calls
made so far; the call numbered `n` returns `rand n`:
`for (std::string key : table[i]) new_table[std::rand() % TABLE_SIZE].push_back(key);`. -/
def rehash_random_fill (rand : Nat → Nat) (tbl : Buckets) (is : List (Fin TABLE_SIZE))
    (st : Buckets × Nat) : Buckets × Nat :=
  is.foldl
    (fun st i =>
      (tbl i).foldl
        (fun st key =>
          (push_back st.1 (slot (rand st.2)) key, st.2 + 1))
        st)
    st

/-- The body of `void rehash_random()`; `rand` is the sequence of results of
`std::rand()` that follows `std::srand(std::time(nullptr))`. -/
def rehash_random (rand : Nat → Nat) (ht : HashTable) : HashTable :=
  let new_table := (rehash_random_fill rand ht.table (List.finRange TABLE_SIZE) (emptyBuckets, 0)).1
  ⟨copy_back ht.table new_table⟩

/-- The keys of the table read in bucket-index order and, inside a bucket,
from front to back: the order in which every loop of the class visits them. -/
def keys (ht : HashTable) : List Key :=
  (List.finRange TABLE_SIZE).flatMap ht.table

end HashTable

/-! ## Concrete keys used in the evaluations -/

/-- The one-character key `"\xff"`. -/
def keyFF : Key := ⟨[255]⟩

/-- The key `"x"` (character code 120). -/
def keyX : Key := ⟨[120]⟩

/-- The key `"apple"`. -/
def keyApple : Key := ⟨[97, 112, 112, 108, 101]⟩

/-- A table state with `"x"` in bucket 120 and `"apple"` in bucket 130. -/
def sampleA : HashTable :=
  ⟨fun i => if i.val = 120 then [keyX] else if i.val = 130 then [keyApple] else []⟩

/-- A table state with two copies of `"apple"` in bucket 0. -/
def sampleB : HashTable :=
  ⟨fun i => if i.val = 0 then [keyApple, keyApple] else []⟩

/-- A sample sequence of `std::rand()` results. -/
def sampleRand : Nat → Nat := fun n => 7 * n + 3

/-! ## Derived definitions used in the statements -/

/-- Pushing the pairs `(index, key)` of `ps` one after another. -/
def distribute (ps : List (Fin TABLE_SIZE × Key)) (arr : Buckets) : Buckets :=
  ps.foldl (fun nt p => push_back nt p.1 p.2) arr

/-- The pairs pushed by the filling loop of `rehash_list` over the indices `is`. -/
def shifted (tbl : Buckets) (is : List (Fin TABLE_SIZE)) : List (Fin TABLE_SIZE × Key) :=
  is.flatMap (fun i => (tbl i).map (fun key => (slot (i.val + 1), key)))

/-- The pairs pushed by the filling loop of `rehash_random` for the keys `ks`
when `c` calls of `std::rand()` have already been made. -/
def drawnPairs (rand : Nat → Nat) (c : Nat) (ks : List Key) : List (Fin TABLE_SIZE × Key) :=
  (ks.enumFrom c).map (fun p => (slot (rand p.1), p.2))

/-- The bucket index chosen for each of the first `n` keys visited by
`rehash_random`: the `j`-th entry is `rand j % TABLE_SIZE`. -/
def destinations (rand : Nat → Nat) (n : Nat) : List (Fin TABLE_SIZE) :=
  (List.range n).map (fun j => slot (rand j))

/-- The hash as the specification words it: the sum of the character codes
of the key, reduced modulo `TABLE_SIZE` to a value in `[0, TABLE_SIZE)`. -/
def hashSpec (key : Key) : Int :=
  (key.chars.map charToInt).sum % (TABLE_SIZE : Int)

/-- Successive calls `insert(k)` for the keys of a list, first to last. -/
def insertAll (ht : HashTable) : List Key → Option HashTable
  | [] => some ht
  | k :: ks =>
    match HashTable.insert ht k with
    | some ht1 => insertAll ht1 ks
    | none => none

/-- The subscript `hash key` once it is known to be non-negative. -/
def hashIndex (key : Key) (h : 0 ≤ HashTable.hash key) : Fin TABLE_SIZE :=
  ⟨(HashTable.hash key).toNat, by
    have hlt : HashTable.hash key < (TABLE_SIZE : Int) := Int.tmod_lt_of_pos _ (by decide)
    omega⟩

/-! ## Output of `print`, checked accumulation, keys of `main` -/

/-- The bytes written to `std::cout`. -/
abbrev Output := List CChar

/-- The literal `"Index "`. -/
def strIndex : Output := [73, 110, 100, 101, 120, 32]

/-- The literal `": "`. -/
def strColon : Output := [58, 32]

/-- The literal `", \n"`. -/
def strCommaNewline : Output := [44, 32, 10]

/-- The literal `"\n\n"`. -/
def strBlank : Output := [10, 10]

/-- The text `std::cout << i` writes for a non-negative `int`: its decimal digits. -/
def decimal (n : Nat) : Output :=
  (Nat.toDigits 10 n).map (fun c => Fin.ofNat c.toNat)

/-- The two nested loops of `print`, run over the bucket indices `is`:
`for (std::string key : table[i]) std::cout << "Index " << i << ": " << key << ", \n";`. -/
def print_loop (tbl : Buckets) (is : List (Fin TABLE_SIZE)) (out : Output) : Output :=
  is.foldl
    (fun o i =>
      (tbl i).foldl
        (fun o key => o ++ strIndex ++ decimal i.val ++ strColon ++ key.chars ++ strCommaNewline)
        o)
    out

/-- The body of `void print()`: the table it leaves and the stream contents
after it, `out` being the stream contents before. No statement of the body
assigns to `table`. -/
def HashTable.print (ht : HashTable) (out : Output) : HashTable × Output :=
  (ht, print_loop ht.table (List.finRange TABLE_SIZE) out ++ strBlank)

/-- One line of the dump as the specification writes it:
`"Index " ++ decimal(i) ++ ": " ++ key ++ ", \n"`. -/
def printLine (i : Nat) (key : Key) : Output :=
  strIndex ++ decimal i ++ strColon ++ key.chars ++ strCommaNewline

/-- The lines of the dump as the specification lists them: over the buckets
in index order and over the keys of each bucket in stored order. -/
def printLines (ht : HashTable) : List Output :=
  (List.finRange TABLE_SIZE).flatMap (fun i => (ht.table i).map (printLine i.val))

/-- The least value of `int`. -/
def INT_MIN : Int := -2147483648

/-- The greatest value of `int`. -/
def INT_MAX : Int := 2147483647

/-- The loop `for (char c : key) sum += c;` of `hash` with signed overflow made
explicit: `none` as soon as one addition leaves the range of `int`. -/
def sumChecked : List CChar → Int → Option Int
  | [], sum => some sum
  | c :: cs, sum =>
    if INT_MIN ≤ sum + charToInt c ∧ sum + charToInt c ≤ INT_MAX then
      sumChecked cs (sum + charToInt c)
    else
      none

/-- The natural-number sum of the character codes of a key. -/
def codeSum (key : Key) : Nat :=
  (key.chars.map (fun c => c.val)).sum

/-- The key `"banana"`. -/
def keyBanana : Key := ⟨[98, 97, 110, 97, 110, 97]⟩

/-- The key `"orange"`. -/
def keyOrange : Key := ⟨[111, 114, 97, 110, 103, 101]⟩

/-- The key `"grape"`. -/
def keyGrape : Key := ⟨[103, 114, 97, 112, 101]⟩

/-- The key `"watermelon"`. -/
def keyWatermelon : Key := ⟨[119, 97, 116, 101, 114, 109, 101, 108, 111, 110]⟩

/-- The keys `main` inserts, in its order. -/
def mainKeys : List Key := [keyApple, keyBanana, keyOrange, keyGrape, keyWatermelon]

/-- The key `"listen"`. -/
def keyListen : Key := ⟨[108, 105, 115, 116, 101, 110]⟩

/-- The key `"silent"`. -/
def keySilent : Key := ⟨[115, 105, 108, 101, 110, 116]⟩

/-- The two-character key `"\xff\xfe"`. -/
def keyFFFE : Key := ⟨[255, 254]⟩

/-- The two-character key `"\xfe\xff"`, an anagram of `"\xff\xfe"`. -/
def keyFEFF : Key := ⟨[254, 255]⟩

/-- The table after `insert("apple")` on the empty table. -/
def tableApple : HashTable := ⟨push_back emptyBuckets ⟨130, by decide⟩ keyApple⟩

/-! ## Loop lemmas -/

theorem push_back_apply (arr : Buckets) (i b : Fin TABLE_SIZE) (key : Key) :
    push_back arr i key b = if i = b then arr b ++ [key] else arr b := by
  unfold push_back
  by_cases h : i = b
  · subst h; simp
  · have h2 : b ≠ i := fun e => h e.symm
    simp [Function.update_noteq h2, h]

theorem distribute_apply (ps : List (Fin TABLE_SIZE × Key)) (arr : Buckets)
    (b : Fin TABLE_SIZE) :
    distribute ps arr b = arr b ++ (ps.filter (fun p => p.1 = b)).map Prod.snd := by
  induction ps generalizing arr with
  | nil => simp [distribute]
  | cons p ps ih =>
    have hstep : distribute (p :: ps) arr = distribute ps (push_back arr p.1 p.2) := rfl
    rw [hstep, ih, push_back_apply]
    by_cases h : p.1 = b
    · simp [h]
    · simp [h]

theorem copy_back_aux (new_table : Buckets) (is : List (Fin TABLE_SIZE)) (tbl : Buckets)
    (b : Fin TABLE_SIZE) :
    is.foldl (fun tb i => Function.update tb i (new_table i)) tbl b
      = if b ∈ is then new_table b else tbl b := by
  induction is generalizing tbl with
  | nil => simp
  | cons i is ih =>
    rw [List.foldl_cons, ih]
    by_cases hb : b ∈ is
    · simp [hb]
    · by_cases hi : b = i
      · subst hi; simp [hb]
      · simp [hb, hi, Function.update_noteq hi]

theorem copy_back_eq (tbl new_table : Buckets) : HashTable.copy_back tbl new_table = new_table := by
  funext b
  unfold HashTable.copy_back
  rw [copy_back_aux]
  simp [List.mem_finRange]

theorem distribute_append (ps qs : List (Fin TABLE_SIZE × Key)) (arr : Buckets) :
    distribute (ps ++ qs) arr = distribute qs (distribute ps arr) := by
  simp [distribute, List.foldl_append]

theorem rehash_list_inner (d : Fin TABLE_SIZE) (ks : List Key) (arr : Buckets) :
    ks.foldl (fun nt key => push_back nt d key) arr
      = distribute (ks.map (fun key => (d, key))) arr := by
  induction ks generalizing arr with
  | nil => rfl
  | cons k ks ih => simp only [List.foldl_cons, List.map_cons, ih]; rfl

theorem rehash_list_fill_eq (tbl : Buckets) (is : List (Fin TABLE_SIZE)) (arr : Buckets) :
    HashTable.rehash_list_fill tbl is arr = distribute (shifted tbl is) arr := by
  induction is generalizing arr with
  | nil => rfl
  | cons i is ih =>
    have hstep : HashTable.rehash_list_fill tbl (i :: is) arr
        = HashTable.rehash_list_fill tbl is
            ((tbl i).foldl (fun nt key => push_back nt (slot (i.val + 1)) key) arr) := rfl
    rw [hstep, ih, rehash_list_inner]
    simp [shifted, distribute_append]

theorem rehash_random_inner (rand : Nat → Nat) (ks : List Key) (arr : Buckets) (c : Nat) :
    ks.foldl (fun st key => (push_back st.1 (slot (rand st.2)) key, st.2 + 1)) (arr, c)
      = (distribute (drawnPairs rand c ks) arr, c + ks.length) := by
  induction ks generalizing arr c with
  | nil => rfl
  | cons k ks ih =>
    simp only [List.foldl_cons, ih, List.length_cons]
    refine Prod.ext ?_ ?_
    · rfl
    · simp only; omega

theorem drawnPairs_append (rand : Nat → Nat) (c : Nat) (ks ls : List Key) :
    drawnPairs rand c (ks ++ ls) = drawnPairs rand c ks ++ drawnPairs rand (c + ks.length) ls := by
  simp [drawnPairs, List.enumFrom_append]

theorem rehash_random_fill_eq (rand : Nat → Nat) (tbl : Buckets) (is : List (Fin TABLE_SIZE))
    (arr : Buckets) (c : Nat) :
    HashTable.rehash_random_fill rand tbl is (arr, c)
      = (distribute (drawnPairs rand c (is.flatMap tbl)) arr, c + (is.flatMap tbl).length) := by
  induction is generalizing arr c with
  | nil => rfl
  | cons i is ih =>
    have hstep : HashTable.rehash_random_fill rand tbl (i :: is) (arr, c)
        = HashTable.rehash_random_fill rand tbl is
            ((tbl i).foldl
              (fun st key => (push_back st.1 (slot (rand st.2)) key, st.2 + 1)) (arr, c)) := rfl
    rw [hstep, rehash_random_inner, ih]
    refine Prod.ext ?_ ?_
    · simp only [List.flatMap_cons, drawnPairs_append, distribute_append]
    · simp only [List.flatMap_cons, List.length_append]; omega

theorem slot_succ_injective (i j : Fin TABLE_SIZE) (h : slot (i.val + 1) = slot (j.val + 1)) :
    i = j := by
  have h1 : (i.val + 1) % 200 = (j.val + 1) % 200 := congrArg Fin.val h
  have hi : i.val < 200 := i.isLt
  have hj : j.val < 200 := j.isLt
  exact Fin.ext (by omega)

theorem flatMap_ite_not_mem {α β : Type} [DecidableEq α] (f : α → List β) (a : α)
    (l : List α) (ha : a ∉ l) :
    l.flatMap (fun i => if i = a then f i else []) = [] := by
  induction l with
  | nil => rfl
  | cons x l ih =>
    have hx : x ≠ a := fun e => ha (by simp [e])
    have hl : a ∉ l := fun e => ha (by simp [e])
    simp [List.flatMap_cons, hx, ih hl]

theorem flatMap_ite_mem {α β : Type} [DecidableEq α] (f : α → List β) (a : α)
    (l : List α) (hnd : l.Nodup) (ha : a ∈ l) :
    l.flatMap (fun i => if i = a then f i else []) = f a := by
  induction l with
  | nil => simp at ha
  | cons x l ih =>
    rw [List.nodup_cons] at hnd
    by_cases hx : x = a
    · subst hx
      simp [List.flatMap_cons, flatMap_ite_not_mem f x l hnd.1]
    · have hl : a ∈ l := by
        rcases List.mem_cons.mp ha with e | e
        · exact absurd e.symm hx
        · exact e
      simp [List.flatMap_cons, hx, ih hnd.2 hl]

theorem shifted_filter (tbl : Buckets) (is : List (Fin TABLE_SIZE)) (b : Fin TABLE_SIZE) :
    ((shifted tbl is).filter (fun p => p.1 = b)).map Prod.snd
      = is.flatMap (fun i => if slot (i.val + 1) = b then tbl i else []) := by
  induction is with
  | nil => rfl
  | cons i is ih =>
    have hs : shifted tbl (i :: is)
        = (tbl i).map (fun key => (slot (i.val + 1), key)) ++ shifted tbl is := by
      simp [shifted]
    rw [hs, List.filter_append, List.map_append, ih, List.flatMap_cons]
    congr 1
    by_cases h : slot (i.val + 1) = b
    · simp [h, List.filter_map, Function.comp_def]
    · simp [h, List.filter_map, Function.comp_def]

theorem rehash_list_table (ht : HashTable) (b : Fin TABLE_SIZE) :
    (HashTable.rehash_list ht).table b
      = (List.finRange TABLE_SIZE).flatMap
          (fun i => if slot (i.val + 1) = b then ht.table i else []) := by
  unfold HashTable.rehash_list
  simp only [copy_back_eq, rehash_list_fill_eq, distribute_apply, shifted_filter]
  simp [emptyBuckets]

theorem rehash_list_table_slot (ht : HashTable) (i : Fin TABLE_SIZE) :
    (HashTable.rehash_list ht).table (slot (i.val + 1)) = ht.table i := by
  rw [rehash_list_table]
  have hfun : (fun j : Fin TABLE_SIZE =>
        if slot (j.val + 1) = slot (i.val + 1) then ht.table j else [])
      = (fun j : Fin TABLE_SIZE => if j = i then ht.table j else []) := by
    funext j
    by_cases h : j = i
    · subst h; simp
    · have h2 : slot (j.val + 1) ≠ slot (i.val + 1) := fun e => h (slot_succ_injective j i e)
      simp [h, h2]
  rw [hfun]
  exact flatMap_ite_mem ht.table i _ (List.nodup_finRange _) (List.mem_finRange i)

theorem slot_val_self (i : Fin TABLE_SIZE) : slot i.val = i :=
  Fin.ext (Nat.mod_eq_of_lt i.isLt)

theorem slot_slot_succ (n : Nat) : slot ((slot n).val + 1) = slot (n + 1) := by
  apply Fin.ext
  show (n % 200 + 1) % 200 = (n + 1) % 200
  omega

theorem rehash_list_iterate (ht : HashTable) (m : Nat) (i : Fin TABLE_SIZE) :
    (HashTable.rehash_list^[m] ht).table (slot (i.val + m)) = ht.table i := by
  induction m with
  | zero => simp [slot_val_self]
  | succ m ih =>
    rw [Function.iterate_succ_apply']
    have h : slot (i.val + (m + 1)) = slot ((slot (i.val + m)).val + 1) := by
      rw [slot_slot_succ]; rfl
    rw [h, rehash_list_table_slot, ih]

theorem count_keys (ht : HashTable) (k : Key) :
    ht.keys.count k = ∑ b : Fin TABLE_SIZE, (ht.table b).count k := by
  unfold HashTable.keys
  rw [List.flatMap, List.count_flatten, List.map_map, Fin.sum_univ_def]
  rfl

theorem length_keys (ht : HashTable) :
    ht.keys.length = ∑ b : Fin TABLE_SIZE, (ht.table b).length := by
  unfold HashTable.keys
  rw [List.flatMap, List.length_flatten, List.map_map, Fin.sum_univ_def]
  rfl

theorem count_distribute_sum (ps : List (Fin TABLE_SIZE × Key)) (k : Key) :
    ∑ b : Fin TABLE_SIZE, ((ps.filter (fun p => p.1 = b)).map Prod.snd).count k
      = (ps.map Prod.snd).count k := by
  induction ps with
  | nil => simp
  | cons p ps ih =>
    have hterm : ∀ b : Fin TABLE_SIZE,
        (((p :: ps).filter (fun q => q.1 = b)).map Prod.snd).count k
          = ((ps.filter (fun q => q.1 = b)).map Prod.snd).count k
            + (if p.1 = b then (if p.2 = k then 1 else 0) else 0) := by
      intro b
      by_cases h : p.1 = b
      · simp [h, List.filter_cons, List.count_cons]
      · simp [h, List.filter_cons]
    simp only [hterm, Finset.sum_add_distrib, ih, Finset.sum_ite_eq, Finset.mem_univ, if_true,
      List.map_cons, List.count_cons]
    simp

theorem shifted_keys (tbl : Buckets) (is : List (Fin TABLE_SIZE)) :
    (shifted tbl is).map Prod.snd = is.flatMap tbl := by
  induction is with
  | nil => rfl
  | cons i is ih =>
    have hs : shifted tbl (i :: is)
        = (tbl i).map (fun key => (slot (i.val + 1), key)) ++ shifted tbl is := by
      simp [shifted]
    rw [hs, List.map_append, ih, List.flatMap_cons]
    simp [Function.comp_def]

theorem drawnPairs_keys (rand : Nat → Nat) (c : Nat) (ks : List Key) :
    (drawnPairs rand c ks).map Prod.snd = ks := by
  induction ks generalizing c with
  | nil => rfl
  | cons k ks ih =>
    have hd : drawnPairs rand c (k :: ks) = (slot (rand c), k) :: drawnPairs rand (c + 1) ks := rfl
    rw [hd, List.map_cons, ih]

theorem rehash_list_table_filter (ht : HashTable) (b : Fin TABLE_SIZE) :
    (HashTable.rehash_list ht).table b
      = ((shifted ht.table (List.finRange TABLE_SIZE)).filter (fun p => p.1 = b)).map
          Prod.snd := by
  unfold HashTable.rehash_list
  simp only [copy_back_eq, rehash_list_fill_eq, distribute_apply]
  simp [emptyBuckets]

theorem rehash_random_table (rand : Nat → Nat) (ht : HashTable) (b : Fin TABLE_SIZE) :
    (HashTable.rehash_random rand ht).table b
      = ((drawnPairs rand 0 ht.keys).filter (fun p => p.1 = b)).map Prod.snd := by
  unfold HashTable.rehash_random
  simp only [copy_back_eq, rehash_random_fill_eq, distribute_apply]
  simp [emptyBuckets, HashTable.keys]

theorem rehash_list_count (ht : HashTable) (k : Key) :
    (HashTable.rehash_list ht).keys.count k = ht.keys.count k := by
  rw [count_keys]
  simp only [rehash_list_table_filter]
  rw [count_distribute_sum, shifted_keys]
  rfl

theorem rehash_random_count (rand : Nat → Nat) (ht : HashTable) (k : Key) :
    (HashTable.rehash_random rand ht).keys.count k = ht.keys.count k := by
  rw [count_keys]
  simp only [rehash_random_table]
  rw [count_distribute_sum, drawnPairs_keys]

theorem rehash_random_perm (rand : Nat → Nat) (ht : HashTable) :
    (HashTable.rehash_random rand ht).keys.Perm ht.keys :=
  List.perm_iff_count.mpr (rehash_random_count rand ht)

theorem drawnPairs_eq_zip_aux (rand : Nat → Nat) (c : Nat) (ks : List Key) :
    drawnPairs rand c ks = ((List.range' c ks.length).map (fun j => slot (rand j))).zip ks := by
  induction ks generalizing c with
  | nil => rfl
  | cons k ks ih =>
    have hd : drawnPairs rand c (k :: ks) = (slot (rand c), k) :: drawnPairs rand (c + 1) ks := rfl
    rw [hd, ih, List.length_cons, List.range'_succ, List.map_cons, List.zip_cons_cons]

theorem drawnPairs_eq_zip (rand : Nat → Nat) (ks : List Key) :
    drawnPairs rand 0 ks = (destinations rand ks.length).zip ks := by
  rw [drawnPairs_eq_zip_aux, destinations, List.range_eq_range']

theorem zip_filter_length (b : Fin TABLE_SIZE) (ds : List (Fin TABLE_SIZE)) (ks : List Key)
    (h : ds.length = ks.length) :
    (((ds.zip ks).filter (fun p => p.1 = b)).map Prod.snd).length
      = (ds.filter (fun d => d = b)).length := by
  induction ds generalizing ks with
  | nil => simp
  | cons d ds ih =>
    cases ks with
    | nil => simp at h
    | cons k ks =>
      have h2 : ds.length = ks.length := by simpa using h
      have ih2 := ih ks h2
      rw [List.length_map] at ih2 ⊢
      by_cases hd : d = b
      · simp [List.filter_cons, hd, ih2]
      · simp [List.filter_cons, hd, ih2]

theorem rehash_random_table_zip (rand : Nat → Nat) (ht : HashTable) (n : Nat)
    (h : n = ht.keys.length) (b : Fin TABLE_SIZE) :
    (HashTable.rehash_random rand ht).table b
      = (((destinations rand n).zip ht.keys).filter (fun p => p.1 = b)).map Prod.snd := by
  subst h
  rw [rehash_random_table, drawnPairs_eq_zip]

theorem rehash_random_bucket_length (rand : Nat → Nat) (ht : HashTable) (b : Fin TABLE_SIZE) :
    ((HashTable.rehash_random rand ht).table b).length
      = ((destinations rand ht.keys.length).filter (fun d => d = b)).length := by
  rw [rehash_random_table_zip rand ht _ rfl b]
  exact zip_filter_length b _ _ (by simp [destinations])

theorem rehash_random_table_enum (rand : Nat → Nat) (ht : HashTable) (b : Fin TABLE_SIZE) :
    (HashTable.rehash_random rand ht).table b
      = (ht.keys.enum.filter (fun p => rand p.1 % TABLE_SIZE = b.val)).map Prod.snd := by
  rw [rehash_random_table, drawnPairs, List.filter_map, List.map_map]
  have hf : (ht.keys.enumFrom 0).filter
        ((fun p : Fin TABLE_SIZE × Key => decide (p.1 = b)) ∘ fun p => (slot (rand p.1), p.2))
      = ht.keys.enum.filter (fun p => rand p.1 % TABLE_SIZE = b.val) := by
    apply List.filter_congr
    intro p _
    simp [slot, Fin.ext_iff]
  rw [hf]
  apply List.map_congr_left
  intro p _
  rfl

/-! ## Hashing and insertion -/

theorem hash_lt (key : Key) : HashTable.hash key < (TABLE_SIZE : Int) :=
  Int.tmod_lt_of_pos _ (by decide)

theorem insert_of_nonneg (ht : HashTable) (key : Key) (h : 0 ≤ HashTable.hash key) :
    HashTable.insert ht key = some ⟨push_back ht.table (hashIndex key h) key⟩ := by
  unfold HashTable.insert
  simp only
  rw [dif_pos ⟨h, hash_lt key⟩]
  rfl

theorem insert_of_neg (ht : HashTable) (key : Key) (h : HashTable.hash key < 0) :
    HashTable.insert ht key = none := by
  unfold HashTable.insert
  simp only
  rw [dif_neg (fun hc => absurd hc.1 (not_le.mpr h))]

theorem insert_frame_of_nonneg (ht : HashTable) (key : Key) (h : 0 ≤ HashTable.hash key) :
    ∃ ht1, HashTable.insert ht key = some ht1
      ∧ ht1.table (hashIndex key h) = ht.table (hashIndex key h) ++ [key]
      ∧ ∀ j : Fin TABLE_SIZE, j ≠ hashIndex key h → ht1.table j = ht.table j := by
  refine ⟨_, insert_of_nonneg ht key h, ?_, ?_⟩
  · simp [push_back_apply]
  · intro j hj
    have hj2 : hashIndex key h ≠ j := fun e => hj e.symm
    simp [push_back_apply, hj2]

theorem insertAll_of_nonneg (ks : List Key) (hks : ∀ k ∈ ks, 0 ≤ HashTable.hash k)
    (ht : HashTable) :
    ∃ ht1, insertAll ht ks = some ht1
      ∧ ∀ i : Fin TABLE_SIZE,
          ht1.table i = ht.table i ++ ks.filter (fun k => HashTable.hash k = (i.val : Int)) := by
  induction ks generalizing ht with
  | nil => exact ⟨ht, rfl, by simp⟩
  | cons k ks ih =>
    have hk : 0 ≤ HashTable.hash k := hks k (by simp)
    have hrest : ∀ k1 ∈ ks, 0 ≤ HashTable.hash k1 := fun k1 hk1 => hks k1 (by simp [hk1])
    obtain ⟨ht1, h1, h2⟩ := ih hrest ⟨push_back ht.table (hashIndex k hk) k⟩
    refine ⟨ht1, ?_, ?_⟩
    · simp only [insertAll, insert_of_nonneg ht k hk]
      exact h1
    · intro i
      rw [h2 i]
      show push_back ht.table (hashIndex k hk) k i ++ _ = _
      rw [push_back_apply]
      have hiff : hashIndex k hk = i ↔ HashTable.hash k = (i.val : Int) := by
        constructor
        · intro e
          have e2 : (HashTable.hash k).toNat = i.val := congrArg Fin.val e
          omega
        · intro e
          apply Fin.ext
          show (HashTable.hash k).toNat = i.val
          omega
      by_cases hi : hashIndex k hk = i
      · have hi2 : HashTable.hash k = (i.val : Int) := hiff.mp hi
        simp [List.filter_cons, hi, hi2]
      · have hi2 : ¬ HashTable.hash k = (i.val : Int) := fun e => hi (hiff.mpr e)
        simp [List.filter_cons, hi, hi2]

theorem wrapInt_add_left (a b : Int) : wrapInt (wrapInt a + b) = wrapInt (a + b) := by
  unfold wrapInt
  omega

theorem hash_fold (cs : List CChar) (s : Int) :
    cs.foldl (fun sum c => wrapInt (sum + charToInt c)) (wrapInt s)
      = wrapInt (s + (cs.map charToInt).sum) := by
  induction cs generalizing s with
  | nil => simp
  | cons c cs ih =>
    rw [List.foldl_cons, wrapInt_add_left, ih, List.map_cons, List.sum_cons, Int.add_assoc]

theorem hash_eq_wrap_sum (key : Key) :
    HashTable.hash key = Int.tmod (wrapInt (key.chars.map charToInt).sum) (TABLE_SIZE : Int) := by
  unfold HashTable.hash
  have h := hash_fold key.chars 0
  have h0 : wrapInt 0 = 0 := by decide
  rw [h0, Int.zero_add] at h
  rw [h]

/-- With a wrapping 32-bit accumulator, a key of 16,909,321 characters of
code 127 hashes to `-129`, while the exact sum of its codes is `167` modulo 200. -/
theorem hash_overflow_example :
    HashTable.hash ⟨List.replicate 16909321 127⟩ = -129
      ∧ hashSpec ⟨List.replicate 16909321 127⟩ = 167 := by
  have hc : charToInt 127 = 127 := by decide
  refine ⟨?_, ?_⟩
  · rw [hash_eq_wrap_sum]
    simp only [List.map_replicate, List.sum_replicate, hc, nsmul_eq_mul]
    decide
  · unfold hashSpec
    simp only [List.map_replicate, List.sum_replicate, hc, nsmul_eq_mul]
    decide

/-! ## The claims -/

/-- Claim C1: `rehash_list()` leaves the multiset of keys held across all 200
buckets unchanged: the keys after the call are a permutation of the keys
before it, so every key occurs exactly as many times as before. -/
theorem rehash_list_conserves_keys (ht : HashTable) :
    (HashTable.rehash_list ht).keys.Perm ht.keys
      ∧ ∀ k : Key, (HashTable.rehash_list ht).keys.count k = ht.keys.count k :=
  ⟨List.perm_iff_count.mpr (rehash_list_count ht), rehash_list_count ht⟩

/-- Claim C2: for every table state and every sequence of `rand()` results,
`rehash_random()` leaves the multiset of keys held across all 200 buckets
unchanged; in particular the total number of keys is unchanged. -/
theorem rehash_random_conserves_keys (rand : Nat → Nat) (ht : HashTable) :
    (HashTable.rehash_random rand ht).keys.Perm ht.keys
      ∧ (∀ k : Key, (HashTable.rehash_random rand ht).keys.count k = ht.keys.count k)
      ∧ (HashTable.rehash_random rand ht).keys.length = ht.keys.length :=
  ⟨rehash_random_perm rand ht, rehash_random_count rand ht, (rehash_random_perm rand ht).length_eq⟩

/-- Claim C4: after `rehash_list()` bucket `(i + 1) % TABLE_SIZE` holds exactly
the keys bucket `i` held before the call, in the same order, for every index
`i`; in particular bucket 0 receives the former contents of bucket 199. -/
theorem rehash_list_rotation (ht : HashTable) (i : Fin TABLE_SIZE) :
    (HashTable.rehash_list ht).table ⟨(i.val + 1) % TABLE_SIZE, Nat.mod_lt _ (by decide)⟩
        = ht.table i
      ∧ (HashTable.rehash_list ht).table ⟨0, by decide⟩ = ht.table ⟨199, by decide⟩ := by
  refine ⟨rehash_list_table_slot ht i, ?_⟩
  have h := rehash_list_table_slot ht ⟨199, by decide⟩
  have h0 : slot ((⟨199, by decide⟩ : Fin TABLE_SIZE).val + 1) = ⟨0, by decide⟩ :=
    Fin.ext (by simp [slot])
  rw [h0] at h
  exact h

/-- Claim C5: applying `rehash_list()` 200 (= `TABLE_SIZE`) times in succession
yields a table equal to the original one, bucket by bucket and in order. -/
theorem rehash_list_full_cycle (ht : HashTable) :
    HashTable.rehash_list^[TABLE_SIZE] ht = ht := by
  apply HashTable.ext
  funext b
  have h := rehash_list_iterate ht TABLE_SIZE b
  have hb : slot (b.val + TABLE_SIZE) = b := by
    apply Fin.ext
    show (b.val + 200) % 200 = b.val
    have hlt : b.val < 200 := b.isLt
    omega
  rw [hb] at h
  exact h

/-- Claim C3, evaluated at the key `"\xff"`: the single `char` has the value
`-1`, so `hash` returns `-1 % 200 = -1`, which is not in `[0, 200)`, and
`insert` subscripts `table` outside its 200 buckets. -/
theorem hash_keyFF_out_of_range :
    HashTable.hash keyFF = -1
      ∧ ¬ (0 ≤ HashTable.hash keyFF ∧ HashTable.hash keyFF < (TABLE_SIZE : Int))
      ∧ HashTable.insert HashTable.empty keyFF = none :=
  ⟨by decide, by decide, rfl⟩

/-- Claim C6, evaluated at the key `"\xff"`: `hash` returns `-1`, whereas the
sum of the character codes reduced modulo 200 is `199` (and `55` when the
code of the byte is read as `255`); on the empty string `hash` returns `0`. -/
theorem hash_keyFF_differs_from_hashSpec :
    HashTable.hash keyFF = -1
      ∧ hashSpec keyFF = 199
      ∧ (keyFF.chars.map (fun c => (c.val : Int))).sum % (TABLE_SIZE : Int) = 55
      ∧ HashTable.hash ⟨[]⟩ = 0 :=
  ⟨by decide, by decide, by decide, by decide⟩

/-- Claim C7, evaluated at the key `"\xff"`: in every table state `insert`
subscripts `table[-1]`, so no bucket of the table receives the key. -/
theorem insert_keyFF_undefined (ht : HashTable) : HashTable.insert ht keyFF = none :=
  insert_of_neg ht keyFF (by decide)

/-- Claim C8, evaluated at the sequence `"apple"`, `"\xff"` inserted into the
empty table: the second insertion subscripts `table[-1]`, so there is no
table afterwards in which the buckets could be read. -/
theorem insertAll_apple_keyFF_undefined :
    insertAll HashTable.empty [keyApple, keyFF] = none :=
  rfl

/-- Claim C9: with `k_0, k_1, ...` the keys of the table in bucket-index order
and, within a bucket, front to back, bucket `b` after `rehash_random()` is
exactly the subsequence of the `k_j` with `rand j % 200 = b`, in increasing
`j`; the loop makes exactly one `rand()` call per key. -/
theorem rehash_random_placement (rand : Nat → Nat) (ht : HashTable) (b : Fin TABLE_SIZE) :
    (HashTable.rehash_random rand ht).table b
        = (ht.keys.enum.filter (fun p => rand p.1 % TABLE_SIZE = b.val)).map Prod.snd
      ∧ (HashTable.rehash_random_fill rand ht.table (List.finRange TABLE_SIZE)
            (emptyBuckets, 0)).2 = ht.keys.length := by
  refine ⟨rehash_random_table_enum rand ht b, ?_⟩
  rw [rehash_random_fill_eq]
  simp [HashTable.keys]

/-- Claim C10: with the sequence of `rand()` results fixed, two tables holding
the same number of keys are rehashed alike: the `j`-th key in traversal order
goes to bucket `destinations rand n` at position `j` in both, every bucket
ends with the same number of keys in both, and this holds in particular for
a table and the result of a previous `rehash_random()` on it. -/
theorem rehash_random_occupancy (rand : Nat → Nat) (ht1 ht2 : HashTable)
    (h : ht1.keys.length = ht2.keys.length) :
    (∀ b : Fin TABLE_SIZE, (HashTable.rehash_random rand ht1).table b
        = (((destinations rand ht1.keys.length).zip ht1.keys).filter
            (fun p => p.1 = b)).map Prod.snd)
      ∧ (∀ b : Fin TABLE_SIZE, (HashTable.rehash_random rand ht2).table b
        = (((destinations rand ht1.keys.length).zip ht2.keys).filter
            (fun p => p.1 = b)).map Prod.snd)
      ∧ (∀ b : Fin TABLE_SIZE, ((HashTable.rehash_random rand ht1).table b).length
        = ((HashTable.rehash_random rand ht2).table b).length)
      ∧ (∀ b : Fin TABLE_SIZE,
          ((HashTable.rehash_random rand (HashTable.rehash_random rand ht1)).table b).length
        = ((HashTable.rehash_random rand ht1).table b).length) := by
  refine ⟨fun b => rehash_random_table_zip rand ht1 _ rfl b,
    fun b => rehash_random_table_zip rand ht2 _ h b, fun b => ?_, fun b => ?_⟩
  · rw [rehash_random_bucket_length, rehash_random_bucket_length, h]
  · rw [rehash_random_bucket_length, rehash_random_bucket_length,
      (rehash_random_perm rand ht1).length_eq]

set_option maxRecDepth 100000 in
/-- The statement of claim C10 at the tables `sampleA`, `sampleB` (two keys
each) and the draws `sampleRand`. -/
theorem rehash_random_occupancy_witness :
    sampleA.keys.length = sampleB.keys.length
      ∧ (∀ b : Fin TABLE_SIZE, (HashTable.rehash_random sampleRand sampleA).table b
        = (((destinations sampleRand sampleA.keys.length).zip sampleA.keys).filter
            (fun p => p.1 = b)).map Prod.snd)
      ∧ (∀ b : Fin TABLE_SIZE, (HashTable.rehash_random sampleRand sampleB).table b
        = (((destinations sampleRand sampleA.keys.length).zip sampleB.keys).filter
            (fun p => p.1 = b)).map Prod.snd)
      ∧ (∀ b : Fin TABLE_SIZE, ((HashTable.rehash_random sampleRand sampleA).table b).length
        = ((HashTable.rehash_random sampleRand sampleB).table b).length)
      ∧ (∀ b : Fin TABLE_SIZE,
          ((HashTable.rehash_random sampleRand
              (HashTable.rehash_random sampleRand sampleA)).table b).length
        = ((HashTable.rehash_random sampleRand sampleA).table b).length) :=
  ⟨by decide, rehash_random_occupancy sampleRand sampleA sampleB (by decide)⟩

/-! ## Lemmas on `print` -/

theorem print_inner (i : Nat) (ks : List Key) (out : Output) :
    ks.foldl
        (fun o key => o ++ strIndex ++ decimal i ++ strColon ++ key.chars ++ strCommaNewline) out
      = out ++ (ks.map (printLine i)).flatten := by
  induction ks generalizing out with
  | nil => simp
  | cons k ks ih =>
    rw [List.foldl_cons, ih]
    simp [printLine, List.append_assoc]

theorem print_loop_eq (tbl : Buckets) (is : List (Fin TABLE_SIZE)) (out : Output) :
    print_loop tbl is out
      = out ++ (is.flatMap (fun i => (tbl i).map (printLine i.val))).flatten := by
  induction is generalizing out with
  | nil => simp [print_loop]
  | cons i is ih =>
    have hstep : print_loop tbl (i :: is) out
        = print_loop tbl is
            ((tbl i).foldl
              (fun o key =>
                o ++ strIndex ++ decimal i.val ++ strColon ++ key.chars ++ strCommaNewline)
              out) := rfl
    rw [hstep, ih, print_inner]
    simp [List.flatMap_cons, List.append_assoc]

/-- The byte lists of the model are the characters of the literals of `print`,
and `decimal` writes the usual decimal digits. -/
theorem literal_bytes :
    strIndex = "Index ".toList.map (fun c => Fin.ofNat c.toNat)
      ∧ strColon = ": ".toList.map (fun c => Fin.ofNat c.toNat)
      ∧ strCommaNewline = ", \n".toList.map (fun c => Fin.ofNat c.toNat)
      ∧ strBlank = "\n\n".toList.map (fun c => Fin.ofNat c.toNat)
      ∧ decimal 0 = "0".toList.map (fun c => Fin.ofNat c.toNat)
      ∧ decimal 7 = "7".toList.map (fun c => Fin.ofNat c.toNat)
      ∧ decimal 42 = "42".toList.map (fun c => Fin.ofNat c.toNat)
      ∧ decimal 130 = "130".toList.map (fun c => Fin.ofNat c.toNat)
      ∧ decimal 199 = "199".toList.map (fun c => Fin.ofNat c.toNat) := by
  decide

/-- The named keys of the model are the strings they stand for. -/
theorem key_bytes :
    keyX.chars = "x".toList.map (fun c => Fin.ofNat c.toNat)
      ∧ keyApple.chars = "apple".toList.map (fun c => Fin.ofNat c.toNat)
      ∧ keyBanana.chars = "banana".toList.map (fun c => Fin.ofNat c.toNat)
      ∧ keyOrange.chars = "orange".toList.map (fun c => Fin.ofNat c.toNat)
      ∧ keyGrape.chars = "grape".toList.map (fun c => Fin.ofNat c.toNat)
      ∧ keyWatermelon.chars = "watermelon".toList.map (fun c => Fin.ofNat c.toNat)
      ∧ keyListen.chars = "listen".toList.map (fun c => Fin.ofNat c.toNat)
      ∧ keySilent.chars = "silent".toList.map (fun c => Fin.ofNat c.toNat) := by
  decide

theorem printLines_length (ht : HashTable) : (printLines ht).length = ht.keys.length := by
  unfold printLines HashTable.keys
  induction List.finRange TABLE_SIZE with
  | nil => rfl
  | cons i is ih => simp [List.flatMap_cons, ih]

theorem rehash_list_empty : HashTable.rehash_list HashTable.empty = HashTable.empty := by
  apply HashTable.ext
  funext b
  rw [rehash_list_table]
  have hfun : (fun i : Fin TABLE_SIZE =>
        if slot (i.val + 1) = b then HashTable.empty.table i else [])
      = (fun _ => ([] : List Key)) := by
    funext i
    by_cases h : slot (i.val + 1) = b
    · simp [h, HashTable.empty, emptyBuckets]
    · simp [h]
  rw [hfun]
  simp [HashTable.empty, emptyBuckets]

theorem printLines_empty : printLines HashTable.empty = [] := by
  unfold printLines
  simp [HashTable.empty, emptyBuckets]

/-! ## Lemmas on insertion followed by `rehash_list` -/

theorem rehash_list_table_pred (ht : HashTable) (b : Fin TABLE_SIZE) :
    (HashTable.rehash_list ht).table b = ht.table (slot (b.val + 199)) := by
  have h := rehash_list_table_slot ht (slot (b.val + 199))
  have hb : slot ((slot (b.val + 199)).val + 1) = b := by
    apply Fin.ext
    show ((b.val + 199) % 200 + 1) % 200 = b.val
    have hlt : b.val < 200 := b.isLt
    omega
  rw [hb] at h
  exact h

theorem rehash_list_iterate_pred (ht : HashTable) (m : Nat) (j : Fin TABLE_SIZE) :
    (HashTable.rehash_list^[m] ht).table j = ht.table (slot (j.val + (200 - m % 200))) := by
  have h := rehash_list_iterate ht m (slot (j.val + (200 - m % 200)))
  have hj : slot ((slot (j.val + (200 - m % 200))).val + m) = j := by
    apply Fin.ext
    show ((j.val + (200 - m % 200)) % 200 + m) % 200 = j.val
    have hlt : j.val < 200 := j.isLt
    omega
  rw [hj] at h
  exact h

theorem insert_rehash_list_of_nonneg (key : Key) (h : 0 ≤ HashTable.hash key)
    (b : Fin TABLE_SIZE) :
    (HashTable.rehash_list ⟨push_back emptyBuckets (hashIndex key h) key⟩).table b
      = if b = slot ((hashIndex key h).val + 1) then [key] else [] := by
  rw [rehash_list_table_pred]
  show push_back emptyBuckets (hashIndex key h) key (slot (b.val + 199)) = _
  rw [push_back_apply]
  have hiff : hashIndex key h = slot (b.val + 199) ↔ b = slot ((hashIndex key h).val + 1) := by
    have hlt : b.val < 200 := b.isLt
    have hlt2 : (hashIndex key h).val < 200 := (hashIndex key h).isLt
    constructor
    · intro e
      have e2 : (hashIndex key h).val = (b.val + 199) % 200 := congrArg Fin.val e
      apply Fin.ext
      show b.val = ((hashIndex key h).val + 1) % 200
      omega
    · intro e
      have e2 : b.val = ((hashIndex key h).val + 1) % 200 := congrArg Fin.val e
      apply Fin.ext
      show (hashIndex key h).val = (b.val + 199) % 200
      omega
  by_cases hb : b = slot ((hashIndex key h).val + 1)
  · rw [if_pos (hiff.mpr hb), if_pos hb]
    simp [emptyBuckets]
  · have hne : ¬ hashIndex key h = slot (b.val + 199) := fun e => hb (hiff.mp e)
    simp [hne, hb, emptyBuckets]

theorem insertAll_some_nonneg (ks : List Key) (ht t : HashTable)
    (hbuilt : insertAll ht ks = some t) : ∀ k ∈ ks, 0 ≤ HashTable.hash k := by
  induction ks generalizing ht with
  | nil => intro k hk; simp at hk
  | cons k0 ks ih =>
    by_cases h0 : 0 ≤ HashTable.hash k0
    · simp only [insertAll, insert_of_nonneg ht k0 h0] at hbuilt
      intro k hk
      rcases List.mem_cons.mp hk with e | e
      · rw [e]; exact h0
      · exact ih _ hbuilt k e
    · have hneg : HashTable.hash k0 < 0 := not_le.mp h0
      simp [insertAll, insert_of_neg ht k0 hneg] at hbuilt

theorem built_table (ks : List Key) (t : HashTable)
    (hbuilt : insertAll HashTable.empty ks = some t) (i : Fin TABLE_SIZE) :
    t.table i = ks.filter (fun k => HashTable.hash k = (i.val : Int)) := by
  obtain ⟨t1, h1, h2⟩ :=
    insertAll_of_nonneg ks (insertAll_some_nonneg ks _ t hbuilt) HashTable.empty
  rw [hbuilt] at h1
  cases h1
  rw [h2 i]
  simp [HashTable.empty, emptyBuckets]

theorem built_bucket_hash (ks : List Key) (t : HashTable)
    (hbuilt : insertAll HashTable.empty ks = some t) (i : Fin TABLE_SIZE) (k : Key)
    (hk : k ∈ t.table i) : HashTable.hash k = (i.val : Int) := by
  rw [built_table ks t hbuilt i] at hk
  simpa using (List.mem_filter.mp hk).2

/-! ## Lemmas on `hash` -/

theorem hash_perm (k1 k2 : Key) (h : k1.chars.Perm k2.chars) :
    HashTable.hash k1 = HashTable.hash k2 := by
  rw [hash_eq_wrap_sum, hash_eq_wrap_sum, (h.map charToInt).sum_eq]

theorem sumChecked_ascii (cs : List CChar) (s : Int) (hs : 0 ≤ s)
    (hascii : ∀ c ∈ cs, c.val ≤ 127) (hb : s + 127 * (cs.length : Int) ≤ INT_MAX) :
    sumChecked cs s = some (s + ((cs.map (fun c => c.val)).sum : Nat))
      ∧ cs.foldl (fun sum c => wrapInt (sum + charToInt c)) s
          = s + ((cs.map (fun c => c.val)).sum : Nat) := by
  induction cs generalizing s with
  | nil => simp [sumChecked]
  | cons c cs ih =>
    have hc : c.val ≤ 127 := hascii c (by simp)
    have hrest : ∀ c1 ∈ cs, c1.val ≤ 127 := fun c1 h1 => hascii c1 (by simp [h1])
    have hci : charToInt c = (c.val : Int) := by
      unfold charToInt
      rw [if_pos (by omega)]
    have hlen : ((c :: cs).length : Int) = (cs.length : Int) + 1 := by simp
    rw [hlen] at hb
    unfold INT_MAX at hb
    have hcs : (0 : Int) ≤ (cs.length : Int) := Int.ofNat_nonneg _
    have hstep := ih (s + (c.val : Int)) (by omega) hrest (by unfold INT_MAX; omega)
    have hw : wrapInt (s + (c.val : Int)) = s + (c.val : Int) := by
      unfold wrapInt
      omega
    have hsum : (((c :: cs).map (fun c => c.val)).sum : Nat)
        = c.val + (cs.map (fun c => c.val)).sum := by simp
    refine ⟨?_, ?_⟩
    · rw [sumChecked, hci, if_pos (by unfold INT_MIN INT_MAX; omega), hstep.1, hsum]
      push_cast
      rw [Int.add_assoc]
    · rw [List.foldl_cons, hci, hw, hstep.2, hsum]
      push_cast
      rw [Int.add_assoc]

theorem insert_then_rehash_list_of_nonneg (key : Key) (h : 0 ≤ HashTable.hash key) :
    ∃ t, HashTable.insert HashTable.empty key = some t
      ∧ ∀ b : Fin TABLE_SIZE, (HashTable.rehash_list t).table b
          = if (b.val : Int) = (HashTable.hash key + 1) % (TABLE_SIZE : Int) then [key] else [] := by
  refine ⟨_, insert_of_nonneg HashTable.empty key h, fun b => ?_⟩
  show (HashTable.rehash_list ⟨push_back emptyBuckets (hashIndex key h) key⟩).table b = _
  rw [insert_rehash_list_of_nonneg]
  have hlt : HashTable.hash key < 200 := hash_lt key
  have hb : b.val < 200 := b.isLt
  have hiff : b = slot ((hashIndex key h).val + 1)
      ↔ (b.val : Int) = (HashTable.hash key + 1) % (TABLE_SIZE : Int) := by
    show _ ↔ (b.val : Int) = (HashTable.hash key + 1) % 200
    constructor
    · intro e
      have e2 : b.val = ((HashTable.hash key).toNat + 1) % 200 := congrArg Fin.val e
      omega
    · intro e
      apply Fin.ext
      show b.val = ((HashTable.hash key).toNat + 1) % 200
      omega
  by_cases hc : b = slot ((hashIndex key h).val + 1)
  · rw [if_pos hc, if_pos (hiff.mp hc)]
  · rw [if_neg hc, if_neg (fun e => hc (hiff.mpr e))]

/-- The scenario of the specification for the key `"x"`: bucket 120 after
`insert`, bucket 121 after one `rehash_list()`. -/
theorem insert_keyX_rehash_list :
    HashTable.hash keyX = 120
      ∧ ∃ t, HashTable.insert HashTable.empty keyX = some t
        ∧ t.table ⟨120, by decide⟩ = [keyX]
        ∧ (HashTable.rehash_list t).table ⟨121, by decide⟩ = [keyX] := by
  have h : 0 ≤ HashTable.hash keyX := by decide
  refine ⟨by decide, _, insert_of_nonneg HashTable.empty keyX h, ?_, ?_⟩
  · have h120 : hashIndex keyX h = (⟨120, by decide⟩ : Fin TABLE_SIZE) := by
      apply Fin.ext
      show (HashTable.hash keyX).toNat = 120
      decide
    exact (push_back_apply emptyBuckets (hashIndex keyX h) _ keyX).trans (if_pos h120)
  · have h121 : (⟨121, by decide⟩ : Fin TABLE_SIZE) = slot ((hashIndex keyX h).val + 1) := by
      apply Fin.ext
      show 121 = ((HashTable.hash keyX).toNat + 1) % 200
      decide
    exact (insert_rehash_list_of_nonneg keyX h _).trans (if_pos h121)

/-! ## The claims on scenarios, `print` and `hash` -/

/-- Claim C11, evaluated at the key `"\xff"`: `insert` on the empty table
subscripts `table[-1]`, so there is no table for `rehash_list()` to act on,
whereas the claim names bucket `(hash(k) + 1) mod 200 = 0` as holding `[k]`. -/
theorem insert_keyFF_rehash_list_undefined :
    (HashTable.insert HashTable.empty keyFF).map HashTable.rehash_list = none
      ∧ (HashTable.hash keyFF + 1) % (TABLE_SIZE : Int) = 0 :=
  ⟨rfl, by decide⟩

/-- Claim C12: `hash("apple") = 530 mod 200 = 130`, and after the five
insertions of `main` into the empty table `"apple"` is in bucket 130 and in
no other bucket. -/
theorem main_apple_in_bucket_130 :
    codeSum keyApple = 530
      ∧ HashTable.hash keyApple = 530 % 200
      ∧ HashTable.hash keyApple = 130
      ∧ ∃ t, insertAll HashTable.empty mainKeys = some t
        ∧ t.table ⟨130, by decide⟩ = [keyApple]
        ∧ ∀ i : Fin TABLE_SIZE, keyApple ∈ t.table i ↔ i = ⟨130, by decide⟩ := by
  have hall : ∀ k ∈ mainKeys, 0 ≤ HashTable.hash k := by decide
  obtain ⟨t, h1, h2⟩ := insertAll_of_nonneg mainKeys hall HashTable.empty
  have hbucket : ∀ i : Fin TABLE_SIZE,
      t.table i = mainKeys.filter (fun k => HashTable.hash k = (i.val : Int)) := by
    intro i
    rw [h2 i]
    simp [HashTable.empty, emptyBuckets]
  refine ⟨by decide, by decide, by decide, t, h1, ?_, ?_⟩
  · rw [hbucket]
    decide
  · intro i
    rw [hbucket, List.mem_filter]
    have hmem : keyApple ∈ mainKeys := by decide
    have hh : HashTable.hash keyApple = 130 := by decide
    constructor
    · intro h
      have h3 : HashTable.hash keyApple = (i.val : Int) := by simpa using h.2
      apply Fin.ext
      show i.val = 130
      omega
    · intro h
      subst h
      exact ⟨hmem, by decide⟩

/-- Claim C13: the text `print()` appends to the stream is the concatenation,
over the buckets in index order and the keys of each bucket in stored order,
of the lines `"Index " ++ decimal(i) ++ ": " ++ key ++ ", \n"`, followed by
`"\n\n"`; there is one line per stored key occurrence and the table is
unchanged. -/
theorem print_output (ht : HashTable) (out : Output) :
    HashTable.print ht out = (ht, out ++ (printLines ht).flatten ++ strBlank)
      ∧ (printLines ht).length = ht.keys.length := by
  refine ⟨?_, printLines_length ht⟩
  unfold HashTable.print
  rw [print_loop_eq]
  rfl

/-- Claim C14: on the empty table `rehash_list()` leaves all 200 buckets
empty, and `print()` on the result writes no `"Index ..."` line: its output
is only the trailing `"\n\n"`. -/
theorem rehash_list_print_empty :
    (∀ b : Fin TABLE_SIZE, (HashTable.rehash_list HashTable.empty).table b = [])
      ∧ printLines (HashTable.rehash_list HashTable.empty) = []
      ∧ (HashTable.print (HashTable.rehash_list HashTable.empty) []).2 = [10, 10] := by
  rw [rehash_list_empty]
  refine ⟨fun b => rfl, printLines_empty, ?_⟩
  unfold HashTable.print
  rw [print_loop_eq]
  show ([] ++ (printLines HashTable.empty).flatten) ++ strBlank = [10, 10]
  rw [printLines_empty]
  rfl

/-- Two keys that are anagrams of each other have the same `hash`, so `insert`
uses the same subscript for both: when the common hash is non-negative both
keys are appended to the same bucket, and otherwise neither is stored. -/
theorem hash_anagram (k1 k2 : Key) (h : k1.chars.Perm k2.chars) :
    HashTable.hash k1 = HashTable.hash k2
      ∧ ∀ ht : HashTable,
          if 0 ≤ HashTable.hash k1 then
            ∃ i : Fin TABLE_SIZE, (i.val : Int) = HashTable.hash k1
              ∧ HashTable.insert ht k1 = some ⟨push_back ht.table i k1⟩
              ∧ HashTable.insert ht k2 = some ⟨push_back ht.table i k2⟩
          else
            HashTable.insert ht k1 = none ∧ HashTable.insert ht k2 = none := by
  have he := hash_perm k1 k2 h
  refine ⟨he, fun ht => ?_⟩
  by_cases h1 : 0 ≤ HashTable.hash k1
  · rw [if_pos h1]
    have h2 : 0 ≤ HashTable.hash k2 := he ▸ h1
    have hidx : hashIndex k2 h2 = hashIndex k1 h1 := by
      apply Fin.ext
      show (HashTable.hash k2).toNat = (HashTable.hash k1).toNat
      rw [he]
    refine ⟨hashIndex k1 h1, ?_, insert_of_nonneg ht k1 h1, ?_⟩
    · show (((HashTable.hash k1).toNat : Nat) : Int) = HashTable.hash k1
      omega
    · rw [insert_of_nonneg ht k2 h2, hidx]
  · rw [if_neg h1]
    have hn1 : HashTable.hash k1 < 0 := not_le.mp h1
    exact ⟨insert_of_neg ht k1 hn1, insert_of_neg ht k2 (he ▸ hn1)⟩

/-- The anagrams `"listen"` and `"silent"` have the same `hash` and are
appended to the same bucket. -/
theorem hash_anagram_witness :
    keyListen.chars.Perm keySilent.chars
      ∧ HashTable.hash keyListen = HashTable.hash keySilent
      ∧ ∀ ht : HashTable,
          if 0 ≤ HashTable.hash keyListen then
            ∃ i : Fin TABLE_SIZE, (i.val : Int) = HashTable.hash keyListen
              ∧ HashTable.insert ht keyListen = some ⟨push_back ht.table i keyListen⟩
              ∧ HashTable.insert ht keySilent = some ⟨push_back ht.table i keySilent⟩
          else
            HashTable.insert ht keyListen = none ∧ HashTable.insert ht keySilent = none :=
  ⟨by decide, hash_anagram keyListen keySilent (by decide)⟩

/-- Claim C16: in a table built from the empty table by `insert` calls alone
and then rehashed `m` times with `rehash_list()`, every key stored in bucket
`i` satisfies `(hash(key) + m) mod 200 = i`; for `m` a multiple of 200 (in
particular `m = 0`) this is `hash(key) = i`, and otherwise the key is not in
the bucket its hash names and inserting it again appends the new copy to
bucket `hash(key)`, different from `i`, leaving bucket `i` as it was. -/
theorem placement_after_rehash_list (ks : List Key) (t : HashTable)
    (hbuilt : insertAll HashTable.empty ks = some t) (m : Nat) (i : Fin TABLE_SIZE) (k : Key)
    (hk : k ∈ (HashTable.rehash_list^[m] t).table i) :
    (HashTable.hash k + (m : Int)) % (TABLE_SIZE : Int) = (i.val : Int)
      ∧ (if m % TABLE_SIZE = 0 then HashTable.hash k = (i.val : Int)
          else HashTable.hash k ≠ (i.val : Int)
            ∧ ∃ (j : Fin TABLE_SIZE) (t2 : HashTable),
                (j.val : Int) = HashTable.hash k ∧ j ≠ i
                  ∧ HashTable.insert (HashTable.rehash_list^[m] t) k = some t2
                  ∧ t2.table j = (HashTable.rehash_list^[m] t).table j ++ [k]
                  ∧ t2.table i = (HashTable.rehash_list^[m] t).table i) := by
  rw [rehash_list_iterate_pred] at hk
  have hh := built_bucket_hash ks t hbuilt _ k hk
  have hi : i.val < 200 := i.isLt
  have hv : (slot (i.val + (200 - m % 200))).val = (i.val + (200 - m % 200)) % 200 := rfl
  rw [hv] at hh
  have h0 : 0 ≤ HashTable.hash k := by omega
  have hlt : HashTable.hash k < 200 := hash_lt k
  have hmain : (HashTable.hash k + (m : Int)) % 200 = (i.val : Int) := by omega
  refine ⟨hmain, ?_⟩
  by_cases hm : m % TABLE_SIZE = 0
  · rw [if_pos hm]
    have hm2 : m % 200 = 0 := hm
    omega
  · rw [if_neg hm]
    have hm2 : m % 200 ≠ 0 := hm
    have hne : HashTable.hash k ≠ (i.val : Int) := by omega
    obtain ⟨t2, hins, hat, hframe⟩ := insert_frame_of_nonneg (HashTable.rehash_list^[m] t) k h0
    have hval : ((hashIndex k h0).val : Int) = HashTable.hash k := by
      show (((HashTable.hash k).toNat : Nat) : Int) = HashTable.hash k
      omega
    have hji : hashIndex k h0 ≠ i := by
      intro e
      rw [e] at hval
      exact hne hval.symm
    exact ⟨hne, hashIndex k h0, t2, hval, hji, hins, hat, hframe i (fun e => hji e.symm)⟩

set_option maxRecDepth 100000 in
/-- The statement of claim C16 at the table holding `"apple"` after one
`rehash_list()`: the key is in bucket 131 while its hash is 130. -/
theorem placement_after_rehash_list_witness :
    insertAll HashTable.empty [keyApple] = some tableApple
      ∧ keyApple ∈ (HashTable.rehash_list^[1] tableApple).table ⟨131, by decide⟩
      ∧ (HashTable.hash keyApple + ((1 : Nat) : Int)) % (TABLE_SIZE : Int)
          = (((⟨131, by decide⟩ : Fin TABLE_SIZE).val : Nat) : Int)
      ∧ (if 1 % TABLE_SIZE = 0 then
            HashTable.hash keyApple = (((⟨131, by decide⟩ : Fin TABLE_SIZE).val : Nat) : Int)
          else HashTable.hash keyApple ≠ (((⟨131, by decide⟩ : Fin TABLE_SIZE).val : Nat) : Int)
            ∧ ∃ (j : Fin TABLE_SIZE) (t2 : HashTable),
                (j.val : Int) = HashTable.hash keyApple ∧ j ≠ ⟨131, by decide⟩
                  ∧ HashTable.insert (HashTable.rehash_list^[1] tableApple) keyApple = some t2
                  ∧ t2.table j = (HashTable.rehash_list^[1] tableApple).table j ++ [keyApple]
                  ∧ t2.table ⟨131, by decide⟩
                      = (HashTable.rehash_list^[1] tableApple).table ⟨131, by decide⟩) :=
  ⟨rfl, by decide,
    placement_after_rehash_list [keyApple] tableApple rfl 1 ⟨131, by decide⟩ keyApple (by decide)⟩

/-- Claim C17: for a key of 7-bit ASCII characters and length at most
16,909,320 no addition of the accumulator of `hash` leaves the range of
`int`, the sum stays at most `2^31 - 1`, and `hash(key)` is the
natural-number sum of the codes modulo 200, a value in `[0, 200)`. -/
theorem hash_ascii_no_overflow (key : Key) (hascii : ∀ c ∈ key.chars, c.val ≤ 127)
    (hlen : key.chars.length ≤ 16909320) :
    sumChecked key.chars 0 = some ((codeSum key : Nat) : Int)
      ∧ ((codeSum key : Nat) : Int) ≤ INT_MAX
      ∧ HashTable.hash key = ((codeSum key % TABLE_SIZE : Nat) : Int)
      ∧ 0 ≤ HashTable.hash key ∧ HashTable.hash key < (TABLE_SIZE : Int) := by
  have hb : (0 : Int) + 127 * (key.chars.length : Int) ≤ INT_MAX := by
    unfold INT_MAX
    omega
  obtain ⟨hchk, hfold⟩ := sumChecked_ascii key.chars 0 (le_refl 0) hascii hb
  rw [Int.zero_add] at hchk hfold
  have hsumle : (key.chars.map (fun c => c.val)).sum ≤ 127 * key.chars.length := by
    have hgen : ∀ cs : List CChar, (∀ c ∈ cs, c.val ≤ 127)
        → (cs.map (fun c => c.val)).sum ≤ 127 * cs.length := by
      intro cs
      induction cs with
      | nil => intro _; simp
      | cons c cs ih =>
        intro hc
        have h1 : c.val ≤ 127 := hc c (by simp)
        have h2 := ih (fun c1 hc1 => hc c1 (by simp [hc1]))
        simp only [List.map_cons, List.sum_cons, List.length_cons]
        omega
    exact hgen key.chars hascii
  have hhash : HashTable.hash key = ((codeSum key % TABLE_SIZE : Nat) : Int) := by
    unfold HashTable.hash
    rw [hfold]
    unfold codeSum
    rw [Int.tmod_eq_emod (Int.ofNat_nonneg _) (by decide)]
    push_cast
    rfl
  refine ⟨hchk, ?_, hhash, ?_, hash_lt key⟩
  · unfold codeSum INT_MAX
    omega
  · rw [hhash]
    exact Int.ofNat_nonneg _

set_option maxRecDepth 100000 in
/-- The statement of claim C17 at the key `"apple"`. -/
theorem hash_ascii_no_overflow_witness :
    (∀ c ∈ keyApple.chars, c.val ≤ 127)
      ∧ keyApple.chars.length ≤ 16909320
      ∧ sumChecked keyApple.chars 0 = some ((codeSum keyApple : Nat) : Int)
      ∧ ((codeSum keyApple : Nat) : Int) ≤ INT_MAX
      ∧ HashTable.hash keyApple = ((codeSum keyApple % TABLE_SIZE : Nat) : Int)
      ∧ 0 ≤ HashTable.hash keyApple ∧ HashTable.hash keyApple < (TABLE_SIZE : Int) :=
  ⟨by decide, by decide, hash_ascii_no_overflow keyApple (by decide) (by decide)⟩

/-- Claim C15, evaluated at the anagrams `"\xff\xfe"` and `"\xfe\xff"`: `hash`
returns `-3` for both, the same value as claimed, but `insert` then
subscripts `table[-3]` for both, so neither key is placed in a bucket. -/
theorem insert_anagrams_undefined :
    keyFFFE.chars.Perm keyFEFF.chars
      ∧ HashTable.hash keyFFFE = -3
      ∧ HashTable.hash keyFEFF = -3
      ∧ ∀ ht : HashTable,
          HashTable.insert ht keyFFFE = none ∧ HashTable.insert ht keyFEFF = none :=
  ⟨by decide, by decide, by decide,
    fun ht => ⟨insert_of_neg ht keyFFFE (by decide), insert_of_neg ht keyFEFF (by decide)⟩⟩

end HasherList
